import Mathlib

set_option maxHeartbeats 1000000

/-!
Shallow embedding of the IME dictionary converter (ime_convert.py): the two
binary decoders (Baidu .bdict/.bcd and Sogou .scel) over an in-memory byte
buffer, the two output reducers, and bounds-checked (exception-explicit)
variants of the decoders.  Buffers are lists of byte values; a file's
contents correspond to a list whose elements are below 256.
-/

/-- One dictionary record, mirroring the Entry dataclass
    (word, ordered pinyin syllables, frequency). -/
structure Entry where
  word : String
  pinyin : List String
  freq : Nat
deriving DecidableEq

/-- Little-endian 16-bit read at off: the source's b[off] | (b[1 + off] << 8).
    Every use site in the decoders is behind a remaining-bytes check; the
    bounds behaviour itself is settled by the checked variants below. -/
def u16le (data : List Nat) (off : Nat) : Nat :=
  data.getD off 0 ||| (data.getD (off + 1) 0 <<< 8)

/-- The Python slicing data[off : off + len] (clamping at the ends). -/
def pySlice (data : List Nat) (off len : Nat) : List Nat :=
  (data.drop off).take len

/-- 16-bit code units from little-endian byte pairs; a dangling final byte is
    an incomplete unit and is dropped (lossy decode). -/
def utf16Units : List Nat → List Nat
  | b0 :: b1 :: rest => (b0 ||| (b1 <<< 8)) :: utf16Units rest
  | _ => []

/-- Decode UTF-16 code units to characters: surrogate pairs combine, unpaired
    surrogates are dropped (decode("utf-16le", errors="ignore")). -/
def utf16Chars : List Nat → List Char
  | [] => []
  | [u] => if 0xD800 ≤ u ∧ u ≤ 0xDFFF then [] else [Char.ofNat u]
  | u :: u2 :: rest =>
    if 0xD800 ≤ u ∧ u ≤ 0xDBFF then
      if 0xDC00 ≤ u2 ∧ u2 ≤ 0xDFFF then
        Char.ofNat (0x10000 + (u - 0xD800) * 0x400 + (u2 - 0xDC00)) :: utf16Chars rest
      else
        utf16Chars (u2 :: rest)
    else if 0xDC00 ≤ u ∧ u ≤ 0xDFFF then
      utf16Chars (u2 :: rest)
    else
      Char.ofNat u :: utf16Chars (u2 :: rest)

/-- bytes.decode("utf-16le", errors="ignore"). -/
def utf16leDecode (bs : List Nat) : String :=
  String.mk (utf16Chars (utf16Units bs))

/-- bytes.decode("ascii", errors="ignore"): bytes at or above 0x80 are dropped. -/
def asciiDecode (bs : List Nat) : String :=
  String.mk ((bs.filter (fun b => decide (b < 128))).map Char.ofNat)

/-- The whitespace test behind no-argument str.strip(): str.isspace(), true
    for U+0009–U+000D, U+001C–U+001F, space, U+0085 (NEL), U+00A0 (NBSP),
    U+1680, U+2000–U+200A, U+2028, U+2029, U+202F, U+205F and U+3000. -/
def pySpace (c : Char) : Bool :=
  decide ((9 ≤ c.toNat ∧ c.toNat ≤ 13) ∨ (28 ≤ c.toNat ∧ c.toNat ≤ 32) ∨
    c.toNat = 0x85 ∨ c.toNat = 0xA0 ∨ c.toNat = 0x1680 ∨
    (0x2000 ≤ c.toNat ∧ c.toNat ≤ 0x200A) ∨ c.toNat = 0x2028 ∨ c.toNat = 0x2029 ∨
    c.toNat = 0x202F ∨ c.toNat = 0x205F ∨ c.toNat = 0x3000)

/-- Drop whitespace from both ends of a character list. -/
def stripChars (l : List Char) : List Char :=
  ((l.dropWhile pySpace).reverse.dropWhile pySpace).reverse

/-- word.strip() in _uniq_stable_words. -/
def pyStrip (s : String) : String :=
  String.mk (stripChars s.data)

/-- The loop body of _uniq_stable_words, carrying the seen set: trim each
    word, skip words empty after trimming or already seen, keep
    first-occurrence order. -/
def uniqStableGo (seen : List String) : List Entry → List String
  | [] => []
  | e :: rest =>
    let w := pyStrip e.word
    if w = "" ∨ w ∈ seen then uniqStableGo seen rest
    else w :: uniqStableGo (w :: seen) rest

/-- _uniq_stable_words. -/
def uniq_stable_words (entries : List Entry) : List String :=
  uniqStableGo [] entries

/-- First-match association-list lookup: Python dict best.get(k). -/
def alGet (m : List (String × List String × Nat)) (k : String) : Option (List String × Nat) :=
  match m with
  | [] => none
  | (k', v) :: rest => if k' = k then some v else alGet rest k

/-- Python dict assignment best[k] = v: replace in place when the key is
    present (keeping its position), append when absent. -/
def alSet (m : List (String × List String × Nat)) (k : String) (v : List String × Nat) :
    List (String × List String × Nat) :=
  match m with
  | [] => [(k, v)]
  | (k', v') :: rest => if k' = k then (k, v) :: rest else (k', v') :: alSet rest k v

/-- One step of write_rime_yaml's dedup loop: store (e.pinyin, e.freq) under
    e.word when the key is absent or e.freq is strictly greater than the
    stored frequency.  (freq is an unsigned integer here, so the source's
    "or 0" coercions and the "if freq is not None else 1" substitution are
    identities.) -/
def bestInsert (m : List (String × List String × Nat)) (e : Entry) :
    List (String × List String × Nat) :=
  match alGet m e.word with
  | none => alSet m e.word (e.pinyin, e.freq)
  | some cur => if cur.2 < e.freq then alSet m e.word (e.pinyin, e.freq) else m

/-- The `best` mapping built by write_rime_yaml, in dict iteration order
    (insertion order of first appearance); each output line is one element. -/
def write_rime_yaml_best (entries : List Entry) : List (String × List String × Nat) :=
  entries.foldl bestInsert []

/-- The 24-entry initial table of the Baidu format. -/
def BDICT_SM : List String :=
  ["c", "d", "b", "f", "g", "h", "ch", "j", "k", "l", "m", "n",
   "", "p", "q", "r", "s", "t", "sh", "zh", "w", "x", "y", "z"]

/-- The 33-entry final table of the Baidu format. -/
def BDICT_YM : List String :=
  ["uang", "iang", "iong", "ang", "eng", "ian", "iao", "ing", "ong",
   "uai", "uan", "ai", "an", "ao", "ei", "en", "er", "ua", "ie", "in", "iu",
   "ou", "ia", "ue", "ui", "un", "uo", "a", "e", "i", "o", "u", "v"]

/-- The type-1 syllable loop of parse_baidu: read cnt (initial, final) byte
    pairs.  A 0xFF initial makes the final byte a literal code point;
    otherwise both indices must be in range for the tables, and a failed
    range check or byte shortage yields none (the source's ok = False). -/
def baiduSyl (data : List Nat) : Nat → Nat → Option (List String × Nat)
  | off, 0 => some ([], off)
  | off, cnt + 1 =>
    if data.length - off < 2 then none
    else
      let sm := data.getD off 0
      let ym := data.getD (off + 1) 0
      if sm = 0xFF then
        match baiduSyl data (off + 2) cnt with
        | none => none
        | some r => some (String.mk [Char.ofNat ym] :: r.1, r.2)
      else if BDICT_SM.length ≤ sm ∨ BDICT_YM.length ≤ ym then none
      else
        match baiduSyl data (off + 2) cnt with
        | none => none
        | some r => some ((BDICT_SM.getD sm "" ++ BDICT_YM.getD ym "") :: r.1, r.2)

/-- The record loop of parse_baidu.  Fuel-indexed; every iteration advances
    the offset by at least 4, so data.length + 1 units of fuel always
    suffice (proved below as fuel irrelevance). -/
def baiduLoop (data : List Nat) : Nat → Nat → List Entry
  | _, 0 => []
  | off, fuel + 1 =>
    if 4 < data.length - off then
      let py_len := u16le data off
      let freq := u16le data (off + 2)
      if data.length - (off + 4) < 2 then []
      else
        let peek0 := data.getD (off + 4) 0
        let peek1 := data.getD (off + 5) 0
        if peek0 = 0 ∧ peek1 = 0 then
          -- Type 3: the word_len read raises EOFError past the end, caught as break
          if data.length < off + 8 then []
          else
            let word_len := u16le data (off + 6)
            let need := py_len * 2 + word_len * 2
            if data.length - (off + 8) < need then []
            else
              let code := utf16leDecode (pySlice data (off + 8) (py_len * 2))
              let word := utf16leDecode (pySlice data (off + 8 + py_len * 2) (word_len * 2))
              ⟨word, [code], freq⟩ :: baiduLoop data (off + 8 + need) fuel
        else if BDICT_SM.length ≤ peek0 ∧ peek0 ≠ 0xFF then
          -- Type 2: one tag byte consumed, then py_len ascii bytes
          if data.length - (off + 5) < py_len then []
          else
            let eng := asciiDecode (pySlice data (off + 5) py_len)
            ⟨eng, [eng], freq⟩ :: baiduLoop data (off + 5 + py_len) fuel
        else
          -- Type 1 (standard)
          match baiduSyl data (off + 4) py_len with
          | none => []
          | some r =>
            if data.length - r.2 < py_len * 2 then []
            else
              let word := utf16leDecode (pySlice data r.2 (py_len * 2))
              ⟨word, r.1, freq⟩ :: baiduLoop data (r.2 + py_len * 2) fuel
    else []

/-- parse_baidu on an in-memory buffer (reading the file from its path is the
    excluded I/O wrapper). -/
def parse_baidu (data : List Nat) (start_offset : Nat) : List Entry :=
  baiduLoop data start_offset (data.length + 1)

/-- Lookup in the phase-1 table: Python dict semantics, the latest assignment
    to an index wins, missing indices give "" (py_table.get(idx, "")). -/
def dictGet (t : List (Nat × String)) (i : Nat) : String :=
  match t.reverse.find? (fun p => p.1 == i) with
  | some p => p.2
  | none => ""

/-- The loop of _read_pinyin_table_scel: scan from start_py + 4 while at
    least 4 bytes remain and the cursor is before start_chinese; a zero or
    overrunning declared length stops table building. -/
def scelTableLoop (data : List Nat) (startChinese : Nat) : Nat → Nat → List (Nat × String)
  | _, 0 => []
  | pos, fuel + 1 =>
    if pos + 4 ≤ data.length ∧ pos < startChinese then
      let index := u16le data pos
      let ln := u16le data (pos + 2)
      if ln = 0 ∨ data.length < pos + 4 + ln then []
      else
        (index, utf16leDecode (pySlice data (pos + 4) ln)) ::
          scelTableLoop data startChinese (pos + 4 + ln) fuel
    else []

/-- _read_pinyin_table_scel. -/
def read_pinyin_table_scel (data : List Nat) (start_py start_chinese : Nat) :
    List (Nat × String) :=
  scelTableLoop data start_chinese (start_py + 4) (data.length + 1)

/-- Resolve successive 16-bit little-endian indexes against the table,
    keeping only non-empty lookups. -/
def pyPairs (t : List (Nat × String)) : List Nat → List String
  | b0 :: b1 :: rest =>
    let p := dictGet t (b0 ||| (b1 <<< 8))
    if p = "" then pyPairs t rest else p :: pyPairs t rest
  | _ => []

/-- _parse_py_indexes_scel: drop a dangling final byte of an odd-length
    list, then resolve the pairs. -/
def parse_py_indexes_scel (pyBytes : List Nat) (t : List (Nat × String)) : List String :=
  pyPairs t (if pyBytes.length % 2 = 1 then pyBytes.dropLast else pyBytes)

/-- The word expansion of one Sogou group ("same" words sharing one pinyin
    sequence): returns the produced entries and the final cursor.  Each
    failed check is the source's break out of the for loop only.
    (The source's ext_len < 0 test is vacuous for an unsigned 16-bit read.) -/
def scelWords (data : List Nat) (pyList : List String) : Nat → Nat → List Entry × Nat
  | pos, 0 => ([], pos)
  | pos, cnt + 1 =>
    if data.length - pos < 2 then ([], pos)
    else
      let wlen := u16le data pos
      if wlen = 0 ∨ data.length - (pos + 2) < wlen then ([], pos + 2)
      else
        let word := utf16leDecode (pySlice data (pos + 2) wlen)
        if data.length - (pos + 2 + wlen) < 2 then ([], pos + 2 + wlen)
        else
          let extLen := u16le data (pos + 2 + wlen)
          if data.length - (pos + 4 + wlen) < extLen then ([], pos + 4 + wlen)
          else
            let ext := pySlice data (pos + 4 + wlen) extLen
            let freq := if 2 ≤ ext.length then ext.getD 0 0 ||| (ext.getD 1 0 <<< 8) else 0
            let r := scelWords data pyList (pos + 4 + wlen + extLen) cnt
            (⟨word, pyList, freq⟩ :: r.1, r.2)

/-- The phase-2 group loop of parse_scel.  Fuel-indexed; every iteration
    advances the cursor by at least 5, so data.length + 1 units suffice. -/
def scelLoop (data : List Nat) (t : List (Nat × String)) : Nat → Nat → List Entry
  | _, 0 => []
  | pos, fuel + 1 =>
    if 8 < data.length - pos then
      let same := u16le data pos
      let pyIdxLen := u16le data (pos + 2)
      if pyIdxLen = 0 ∨ data.length - (pos + 4) < pyIdxLen then []
      else
        let pyList := parse_py_indexes_scel (pySlice data (pos + 4) pyIdxLen) t
        let r := scelWords data pyList (pos + 4 + pyIdxLen) same
        r.1 ++ scelLoop data t r.2 fuel
    else []

/-- parse_scel on an in-memory buffer. -/
def parse_scel (data : List Nat) (start_py start_chinese : Nat) : List Entry :=
  scelLoop data (read_pinyin_table_scel data start_py start_chinese) start_chinese
    (data.length + 1)

/-- Distinct elements of a list in first-occurrence order (the wording of
    the specification's ordering clauses). -/
def dedupFirst : List String → List String
  | [] => []
  | w :: rest => w :: dedupFirst (rest.filter (fun x => x != w))
termination_by l => l.length
decreasing_by
  simp only [List.length_cons]
  exact Nat.lt_succ_of_le (List.length_filter_le _ _)

/-- Specification-side best entry of a word group: the (pinyin, freq) of the
    entry with the highest frequency, earliest first on ties. -/
def specBest (es : List Entry) : List String × Nat :=
  let m := (es.map (fun e => e.freq)).foldr max 0
  match es.find? (fun e => e.freq == m) with
  | some e => (e.pinyin, e.freq)
  | none => ([], 0)

/-- The weighted merge as the specification words it: one output row per
    distinct word in first-appearance order, carrying that word's best
    (pinyin, freq). -/
def specMerge (entries : List Entry) : List (String × List String × Nat) :=
  (dedupFirst (entries.map (fun e => e.word))).map
    (fun w => (w, specBest (entries.filter (fun e => e.word == w))))

/-- Python exception kinds relevant to the decoders: EOFError (raised by the
    checked 16-bit read and caught at some call sites) and IndexError (an
    out-of-bounds subscript, never caught inside the decoders). -/
inductive PyErr
  | eof
  | index
deriving DecidableEq

/-- A raw b[i] subscript: IndexError past the end. -/
def getByte (data : List Nat) (i : Nat) : Except PyErr Nat :=
  match data.get? i with
  | some b => .ok b
  | none => .error .index

/-- Table subscript t[i] on a string list: IndexError past the end. -/
def getItem (t : List String) (i : Nat) : Except PyErr String :=
  match t.get? i with
  | some s => .ok s
  | none => .error .index

/-- _u16le / _u16le_mem with their own bound check: EOFError when fewer than
    2 bytes remain, then two raw subscripts. -/
def u16leX (data : List Nat) (off : Nat) : Except PyErr Nat :=
  if data.length < off + 2 then .error .eof
  else
    match getByte data off, getByte data (off + 1) with
    | .ok b0, .ok b1 => .ok (b0 ||| (b1 <<< 8))
    | .error e, _ => .error e
    | _, .error e => .error e

/-- Checked type-1 syllable loop: ok none is the source's ok = False. -/
def baiduSylX (data : List Nat) : Nat → Nat → Except PyErr (Option (List String × Nat))
  | off, 0 => .ok (some ([], off))
  | off, cnt + 1 =>
    if data.length - off < 2 then .ok none
    else
      match getByte data off, getByte data (off + 1) with
      | .ok sm, .ok ym =>
        if sm = 0xFF then
          match baiduSylX data (off + 2) cnt with
          | .ok none => .ok none
          | .ok (some r) => .ok (some (String.mk [Char.ofNat ym] :: r.1, r.2))
          | .error e => .error e
        else if BDICT_SM.length ≤ sm ∨ BDICT_YM.length ≤ ym then .ok none
        else
          match getItem BDICT_SM sm, getItem BDICT_YM ym with
          | .ok s, .ok y =>
            match baiduSylX data (off + 2) cnt with
            | .ok none => .ok none
            | .ok (some r) => .ok (some ((s ++ y) :: r.1, r.2))
            | .error e => .error e
          | .error e, _ => .error e
          | _, .error e => .error e
      | .error e, _ => .error e
      | _, .error e => .error e

/-- Prepend an entry to a checked tail. -/
def consX (e : Entry) (r : Except PyErr (List Entry)) : Except PyErr (List Entry) :=
  match r with
  | .ok l => .ok (e :: l)
  | .error er => .error er

/-- Checked record loop of parse_baidu: the two header reads and the type-3
    word_len read sit inside try/except EOFError (an EOFError there becomes
    break); every other failure propagates. -/
def baiduLoopX (data : List Nat) : Nat → Nat → Except PyErr (List Entry)
  | _, 0 => .ok []
  | off, fuel + 1 =>
    if 4 < data.length - off then
      match u16leX data off, u16leX data (off + 2) with
      | .ok py_len, .ok freq =>
        if data.length - (off + 4) < 2 then .ok []
        else
          match getByte data (off + 4), getByte data (off + 5) with
          | .ok peek0, .ok peek1 =>
            if peek0 = 0 ∧ peek1 = 0 then
              match u16leX data (off + 6) with
              | .error .eof => .ok []
              | .error .index => .error .index
              | .ok word_len =>
                if data.length - (off + 8) < py_len * 2 + word_len * 2 then .ok []
                else
                  consX ⟨utf16leDecode (pySlice data (off + 8 + py_len * 2) (word_len * 2)),
                         [utf16leDecode (pySlice data (off + 8) (py_len * 2))], freq⟩
                    (baiduLoopX data (off + 8 + (py_len * 2 + word_len * 2)) fuel)
            else if BDICT_SM.length ≤ peek0 ∧ peek0 ≠ 0xFF then
              if data.length - (off + 5) < py_len then .ok []
              else
                consX ⟨asciiDecode (pySlice data (off + 5) py_len),
                       [asciiDecode (pySlice data (off + 5) py_len)], freq⟩
                  (baiduLoopX data (off + 5 + py_len) fuel)
            else
              match baiduSylX data (off + 4) py_len with
              | .error e => .error e
              | .ok none => .ok []
              | .ok (some r) =>
                if data.length - r.2 < py_len * 2 then .ok []
                else
                  consX ⟨utf16leDecode (pySlice data r.2 (py_len * 2)), r.1, freq⟩
                    (baiduLoopX data (r.2 + py_len * 2) fuel)
          | .error e, _ => .error e
          | _, .error e => .error e
      | .error .eof, _ => .ok []
      | .error .index, _ => .error .index
      | _, .error .eof => .ok []
      | _, .error .index => .error .index
    else .ok []

/-- Checked parse_baidu. -/
def parse_baiduX (data : List Nat) (start_offset : Nat) : Except PyErr (List Entry) :=
  baiduLoopX data start_offset (data.length + 1)

/-- Checked phase-1 table loop: four raw subscripts behind the pos + 4 check. -/
def scelTableLoopX (data : List Nat) (startChinese : Nat) :
    Nat → Nat → Except PyErr (List (Nat × String))
  | _, 0 => .ok []
  | pos, fuel + 1 =>
    if pos + 4 ≤ data.length ∧ pos < startChinese then
      match getByte data pos, getByte data (pos + 1), getByte data (pos + 2),
            getByte data (pos + 3) with
      | .ok i0, .ok i1, .ok l0, .ok l1 =>
        let index := i0 ||| (i1 <<< 8)
        let ln := l0 ||| (l1 <<< 8)
        if ln = 0 ∨ data.length < pos + 4 + ln then .ok []
        else
          match scelTableLoopX data startChinese (pos + 4 + ln) fuel with
          | .ok t => .ok ((index, utf16leDecode (pySlice data (pos + 4) ln)) :: t)
          | .error e => .error e
      | .error e, _, _, _ => .error e
      | _, .error e, _, _ => .error e
      | _, _, .error e, _ => .error e
      | _, _, _, .error e => .error e
    else .ok []

/-- Checked word expansion of one group: the wlen and ext_len reads are NOT
    inside a try block in the source, so an EOFError there would propagate;
    both are behind remain() < 2 checks. -/
def scelWordsX (data : List Nat) (pyList : List String) :
    Nat → Nat → Except PyErr (List Entry × Nat)
  | pos, 0 => .ok ([], pos)
  | pos, cnt + 1 =>
    if data.length - pos < 2 then .ok ([], pos)
    else
      match u16leX data pos with
      | .error e => .error e
      | .ok wlen =>
        if wlen = 0 ∨ data.length - (pos + 2) < wlen then .ok ([], pos + 2)
        else
          if data.length - (pos + 2 + wlen) < 2 then .ok ([], pos + 2 + wlen)
          else
            match u16leX data (pos + 2 + wlen) with
            | .error e => .error e
            | .ok extLen =>
              if data.length - (pos + 4 + wlen) < extLen then .ok ([], pos + 4 + wlen)
              else
                let ext := pySlice data (pos + 4 + wlen) extLen
                match scelWordsX data pyList (pos + 4 + wlen + extLen) cnt with
                | .error e => .error e
                | .ok r =>
                  .ok (⟨utf16leDecode (pySlice data (pos + 2) wlen), pyList,
                        if 2 ≤ ext.length then ext.getD 0 0 ||| (ext.getD 1 0 <<< 8) else 0⟩
                         :: r.1, r.2)

/-- Checked phase-2 group loop: the two header reads are inside
    try/except EOFError. -/
def scelLoopX (data : List Nat) (t : List (Nat × String)) :
    Nat → Nat → Except PyErr (List Entry)
  | _, 0 => .ok []
  | pos, fuel + 1 =>
    if 8 < data.length - pos then
      match u16leX data pos, u16leX data (pos + 2) with
      | .ok same, .ok pyIdxLen =>
        if pyIdxLen = 0 ∨ data.length - (pos + 4) < pyIdxLen then .ok []
        else
          let pyList := parse_py_indexes_scel (pySlice data (pos + 4) pyIdxLen) t
          match scelWordsX data pyList (pos + 4 + pyIdxLen) same with
          | .error e => .error e
          | .ok r =>
            match scelLoopX data t r.2 fuel with
            | .ok l => .ok (r.1 ++ l)
            | .error e => .error e
      | .error .eof, _ => .ok []
      | .error .index, _ => .error .index
      | _, .error .eof => .ok []
      | _, .error .index => .error .index
    else .ok []

/-- Checked parse_scel. -/
def parse_scelX (data : List Nat) (start_py start_chinese : Nat) : Except PyErr (List Entry) :=
  match scelTableLoopX data start_chinese (start_py + 4) (data.length + 1) with
  | .error e => .error e
  | .ok t => scelLoopX data t start_chinese (data.length + 1)

/-- Sogou buffer whose first group (same = 2) declares word length 0 for its
    first word at offset 10, followed by bytes that parse as a further valid
    group; table region is empty (start_py = 0, start_chinese = 4). -/
def c1buf : List Nat :=
  [0, 0, 0, 0, 2, 0, 2, 0, 0, 0, 0, 0, 1, 0, 2, 0, 0, 0, 2, 0, 0x41, 0, 2, 0, 0x0A, 0]

/-- Sogou buffer with one word whose extension field is declared empty
    (ext_len = 0 at offset 14). -/
def c2buf : List Nat :=
  [0, 0, 0, 0, 1, 0, 2, 0, 5, 0, 2, 0, 0x41, 0, 0, 0]

/-- Baidu buffer: one standard record, pinyin_len = 1, freq = 5, the single
    syllable pair (0, 27), then UTF-16LE bytes of one character. -/
def c3buf : List Nat :=
  [1, 0, 5, 0, 0, 27, 0x2D, 0x4E]

/-- Baidu buffer: a valid standard record, then a record with syllable pair
    (0, 40) whose final index 40 is out of range, then another valid record
    that would parse if reached. -/
def c4abuf : List Nat :=
  [1, 0, 2, 0, 0, 30, 0x2D, 0x4E, 1, 0, 1, 0, 0, 40, 1, 0, 3, 0, 0, 30, 0x2D, 0x4E]

/-- Baidu buffer: a standard record declaring pinyin_len = 3 whose buffer
    ends after one syllable pair. -/
def c4bbuf : List Nat :=
  [3, 0, 1, 0, 0, 30]

/-- Sogou buffer whose phase-1 table entry at offset 4 declares a 20-byte
    syllable overlapping the group region; truncating the buffer to 24 bytes
    makes that declared length overrun, so the truncated decode builds an
    empty table and resolves the group's pinyin differently. -/
def c5buf : List Nat :=
  [0, 0, 0, 0, 5, 0, 20, 0, 1, 0, 2, 0, 5, 0, 2, 0, 0x41, 0, 2, 0, 7, 0, 0, 0, 0, 0, 0, 0]

/-- Sogou buffer realising the specification's concrete scenario: table
    {5 : "ni", 9 : "hao"}, one group with same = 1, index bytes
    05 00 09 00, a two-character word, extension bytes 0A 00. -/
def c8buf : List Nat :=
  [0, 0, 0, 0, 5, 0, 4, 0, 0x6E, 0, 0x69, 0, 9, 0, 6, 0, 0x68, 0, 0x61, 0, 0x6F, 0,
   1, 0, 4, 0, 5, 0, 9, 0, 4, 0, 0x60, 0x4F, 0x7D, 0x59, 2, 0, 0x0A, 0]

/-! ### Helper lemmas -/

theorem pySlice_length (data : List Nat) (off len : Nat) :
    (pySlice data off len).length = min len (data.length - off) := by
  simp [pySlice]

theorem mem_alSet (m : List (String × List String × Nat)) (k : String)
    (v : List String × Nat) (w : String) (pf : List String × Nat) :
    (w, pf) ∈ alSet m k v → (w, pf) ∈ m ∨ (w = k ∧ pf = v) := by
  induction m with
  | nil => simp [alSet]
  | cons hd tl ih =>
    simp only [alSet]
    split_ifs with hk
    · intro h
      rcases List.mem_cons.mp h with h | h
      · right; exact ⟨congrArg Prod.fst h, congrArg Prod.snd h⟩
      · left; exact List.mem_cons_of_mem _ h
    · intro h
      rcases List.mem_cons.mp h with h | h
      · left; exact h ▸ List.mem_cons_self _ _
      · rcases ih h with h | h
        · left; exact List.mem_cons_of_mem _ h
        · right; exact h

theorem mem_bestInsert (m : List (String × List String × Nat)) (e : Entry)
    (w : String) (pf : List String × Nat) :
    (w, pf) ∈ bestInsert m e →
    (w, pf) ∈ m ∨ (e.word = w ∧ e.pinyin = pf.1 ∧ e.freq = pf.2) := by
  intro h
  rcases hg : alGet m e.word with _ | cur
  · simp only [bestInsert, hg] at h
    rcases mem_alSet _ _ _ _ _ h with h | ⟨h1, h2⟩
    · left; exact h
    · subst h2; right; exact ⟨h1.symm, rfl, rfl⟩
  · simp only [bestInsert, hg] at h
    split_ifs at h with hf
    · rcases mem_alSet _ _ _ _ _ h with h | ⟨h1, h2⟩
      · left; exact h
      · subst h2; right; exact ⟨h1.symm, rfl, rfl⟩
    · left; exact h

theorem mem_foldl_bestInsert :
    ∀ (entries : List Entry) (m : List (String × List String × Nat))
      (w : String) (pf : List String × Nat),
      (w, pf) ∈ List.foldl bestInsert m entries →
      (w, pf) ∈ m ∨ ∃ e, e ∈ entries ∧ e.word = w ∧ e.pinyin = pf.1 ∧ e.freq = pf.2 := by
  intro entries
  induction entries with
  | nil => intro m w pf h; left; exact h
  | cons e rest ih =>
    intro m w pf h
    rcases ih _ _ _ h with h | ⟨e', he', h1, h2, h3⟩
    · rcases mem_bestInsert _ _ _ _ h with h | ⟨h1, h2, h3⟩
      · left; exact h
      · right; exact ⟨e, List.mem_cons_self _ _, h1, h2, h3⟩
    · right; exact ⟨e', List.mem_cons_of_mem _ he', h1, h2, h3⟩

theorem pyPairs_ne (t : List (Nat × String)) :
    ∀ bs p, p ∈ pyPairs t bs → p ≠ ""
  | [], p, h => by simp [pyPairs] at h
  | [b], p, h => by simp [pyPairs] at h
  | b0 :: b1 :: rest, p, h => by
    simp only [pyPairs] at h
    split_ifs at h with hp
    · exact pyPairs_ne t rest p h
    · rcases List.mem_cons.mp h with rfl | h
      · exact hp
      · exact pyPairs_ne t rest p h

theorem scelWords_pinyin (data : List Nat) (pyList : List String) :
    ∀ cnt pos e, e ∈ (scelWords data pyList pos cnt).1 → e.pinyin = pyList := by
  intro cnt
  induction cnt with
  | zero => intro pos e h; simp [scelWords] at h
  | succ n ih =>
    intro pos e h
    simp only [scelWords] at h
    split_ifs at h with h1 h2 h3 h4 h5
    · simp at h
    · simp at h
    · simp at h
    · simp at h
    · rcases List.mem_cons.mp h with rfl | h
      · rfl
      · exact ih _ _ h
    · rcases List.mem_cons.mp h with rfl | h
      · rfl
      · exact ih _ _ h

theorem scelWords_length_le (data : List Nat) (pyList : List String) :
    ∀ cnt pos, (scelWords data pyList pos cnt).1.length ≤ cnt := by
  intro cnt
  induction cnt with
  | zero => intro pos; simp [scelWords]
  | succ n ih =>
    intro pos
    simp only [scelWords]
    split_ifs with h1 h2 h3 h4 h5
    · simp
    · simp
    · simp
    · simp
    · simpa using Nat.succ_le_succ (ih _)
    · simpa using Nat.succ_le_succ (ih _)

/-! ### Claim theorems -/

/-- C1, counterexample: in c1buf the first group's first word declares
    length 0 (a non-positive declared length hit during group expansion),
    yet the decode still emits an entry coming from a later group, so the
    condition does not stop the entire decode. -/
theorem c1_counterexample :
    u16le c1buf 10 = 0 ∧ parse_scel c1buf 0 4 = [⟨"A", [], 10⟩] := by
  constructor
  · decide
  · decide

/-- C1, amended: an insufficient-remaining-bytes or non-positive
    declared-length condition inside a group stops only that group's word
    expansion (the group emits at most `same` entries and keeps the ones
    already produced); the outer loop then resumes at the cursor position
    where the group stopped, so later groups can still emit entries. -/
theorem c1_amended_group_break_resumes :
    (∀ (data : List Nat) (t : List (Nat × String)) (pos fuel : Nat),
      8 < data.length - pos →
      u16le data (pos + 2) ≠ 0 →
      u16le data (pos + 2) ≤ data.length - (pos + 4) →
      scelLoop data t pos (fuel + 1) =
        (scelWords data
            (parse_py_indexes_scel (pySlice data (pos + 4) (u16le data (pos + 2))) t)
            (pos + 4 + u16le data (pos + 2)) (u16le data pos)).1 ++
          scelLoop data t
            (scelWords data
                (parse_py_indexes_scel (pySlice data (pos + 4) (u16le data (pos + 2))) t)
                (pos + 4 + u16le data (pos + 2)) (u16le data pos)).2 fuel) ∧
    (∀ (data : List Nat) (pyList : List String) (pos cnt : Nat),
      (scelWords data pyList pos cnt).1.length ≤ cnt) := by
  constructor
  · intro data t pos fuel h1 h2 h3
    have hcond : ¬(u16le data (pos + 2) = 0 ∨
        data.length - (pos + 4) < u16le data (pos + 2)) := by
      push_neg
      exact ⟨h2, h3⟩
    simp only [scelLoop]
    rw [if_pos h1, if_neg hcond]
  · intro data pyList pos cnt
    exact scelWords_length_le data pyList cnt pos

/-- C1, witness: the amended statement applied to c1buf at the first group
    header (position 4). -/
theorem c1_witness :
    scelLoop c1buf [] 4 4 =
      (scelWords c1buf (parse_py_indexes_scel (pySlice c1buf 8 2) []) 10 2).1 ++
        scelLoop c1buf []
          (scelWords c1buf (parse_py_indexes_scel (pySlice c1buf 8 2) []) 10 2).2 3 :=
  c1_amended_group_break_resumes.1 c1buf [] 4 3 (by decide) (by decide) (by decide)

/-- C2, counterexample: a Sogou word with an empty extension field decodes
    with frequency 0, not 1, and the weighted merge writes that 0. -/
theorem c2_counterexample :
    parse_scel c2buf 0 4 = [⟨"A", [], 0⟩] ∧
      write_rime_yaml_best (parse_scel c2buf 0 4) = [("A", [], 0)] := by
  constructor
  · decide
  · decide

/-- C2, amended: when a Sogou word's extension field has fewer than 2 bytes
    the produced entry's frequency is 0 (not 1), and the weighted merge
    fabricates no frequency: every output row's pinyin and frequency come
    from some input entry with that exact word, so such a word's row keeps
    frequency 0. -/
theorem c2_amended_freq_defaults_to_zero :
    (∀ (data : List Nat) (pyList : List String) (pos cnt : Nat) (e : Entry)
       (rest : List Entry) (pos' : Nat),
      scelWords data pyList pos (cnt + 1) = (e :: rest, pos') →
      u16le data (pos + 2 + u16le data pos) < 2 →
      e.freq = 0) ∧
    (∀ (entries : List Entry) (w : String) (pf : List String × Nat),
      (w, pf) ∈ write_rime_yaml_best entries →
      ∃ e, e ∈ entries ∧ e.word = w ∧ e.pinyin = pf.1 ∧ e.freq = pf.2) := by
  constructor
  · intro data pyList pos cnt e rest pos' hw hext
    simp only [scelWords] at hw
    split_ifs at hw with h1 h2 h3 h4 h5
    · simp at hw
    · simp at hw
    · simp at hw
    · simp at hw
    · exfalso
      rw [pySlice_length] at h5
      exact absurd hext (Nat.not_lt.mpr (Nat.le_trans h5 (Nat.min_le_left _ _)))
    · have h6 := congrArg Prod.fst hw
      simp only at h6
      injection h6 with hhead htail
      rw [← hhead]
  · intro entries w pf h
    rcases mem_foldl_bestInsert entries [] w pf h with h | h
    · simp at h
    · exact h

/-- C2, witness: the amended statement applied to c2buf's single word
    (group body at position 10, extension length field at offset 14). -/
theorem c2_witness : (Entry.mk "A" [] 0).freq = 0 :=
  c2_amended_freq_defaults_to_zero.1 c2buf [] 10 0 ⟨"A", [], 0⟩ [] 16
    (by decide) (by decide)

/-- C3, counterexample: the record encoding the syllable pair
    (initial 0, final 27) decodes to pinyin "ca" (BDICT_YM has "a" at
    index 27), not "co" as the claim states. -/
theorem c3_counterexample :
    parse_baidu c3buf 0 = [⟨"中", ["ca"], 5⟩] ∧
      [Entry.mk "中" ["ca"] 5] ≠ [Entry.mk "中" ["co"] 5] := by
  constructor
  · decide
  · decide

/-- C3, amended: the scenario record (pinyin_len = 1, freq = 5, peeked bytes
    (0, 27) neither 0x0000 nor an out-of-range initial, syllable pair
    (initial 0 "c", final 27 "a"), one UTF-16LE character) yields exactly one
    entry with pinyin ["ca"], freq 5, and word equal to that character. -/
theorem c3_amended_pair_0_27_gives_ca :
    parse_baidu c3buf 0 = [⟨"中", ["ca"], 5⟩] := by
  decide

/-- C4: in a standard Baidu record (peeked bytes neither the 0x0000 compound
    sentinel nor an out-of-range-initial literal record), a failed syllable
    parse — an out-of-range table index or the buffer ending mid-syllable —
    makes the record loop return [] from that record on, i.e. the entire
    decode terminates with only the entries already emitted.  Concretely,
    c4abuf stops at its second record's final index 40 ≥ 33 keeping only the
    first record's entry (the third, well-formed record is never parsed),
    and c4bbuf (pinyin_len = 3, buffer ends after one pair) yields zero
    entries. -/
theorem c4_bad_syllable_stops_decode :
    (∀ (data : List Nat) (off : Nat),
      ¬(data.getD (off + 4) 0 = 0 ∧ data.getD (off + 5) 0 = 0) →
      ¬(BDICT_SM.length ≤ data.getD (off + 4) 0 ∧ data.getD (off + 4) 0 ≠ 0xFF) →
      baiduSyl data (off + 4) (u16le data off) = none →
      ∀ fuel, baiduLoop data off fuel = []) ∧
    parse_baidu c4abuf 0 = [⟨"中", ["co"], 2⟩] ∧
    parse_baidu c4bbuf 0 = [] := by
  refine ⟨?_, by decide, by decide⟩
  intro data off hp3 hp2 hsyl fuel
  match fuel with
  | 0 => rfl
  | fuel + 1 =>
    by_cases hA : 4 < data.length - off
    · by_cases hB : data.length - (off + 4) < 2
      · simp only [baiduLoop]
        rw [if_pos hA, if_pos hB]
      · simp only [baiduLoop]
        rw [if_pos hA, if_neg hB, if_neg hp3, if_neg hp2, hsyl]
    · simp only [baiduLoop]
      rw [if_neg hA]

/-- C4, witness: the general statement applied to c4bbuf at offset 0 with
    fuel 7 (the fuel parse_baidu itself would use). -/
theorem c4_witness : baiduLoop c4bbuf 0 7 = [] :=
  c4_bad_syllable_stops_decode.1 c4bbuf 0 (by decide) (by decide) (by decide) 7

/-- C8: the Sogou scenario buffer (table {5 : "ni", 9 : "hao"}, same = 1,
    index bytes 05 00 09 00, a two-character word, extension bytes 0A 00)
    decodes to the single entry with pinyin ["ni", "hao"] and freq 10;
    every entry a group's expansion produces carries exactly the group's
    pinyin sequence; an odd-length index list is read as if its final
    dangling byte were removed; and only non-empty table lookups are kept. -/
theorem c8_group_pinyin_resolution :
    parse_scel c8buf 0 22 = [⟨"你好", ["ni", "hao"], 10⟩] ∧
    (∀ (data : List Nat) (pyList : List String) (pos cnt : Nat) (e : Entry),
      e ∈ (scelWords data pyList pos cnt).1 → e.pinyin = pyList) ∧
    (∀ (bs : List Nat) (t : List (Nat × String)), bs.length % 2 = 1 →
      parse_py_indexes_scel bs t = parse_py_indexes_scel bs.dropLast t) ∧
    (∀ (bs : List Nat) (t : List (Nat × String)) (p : String),
      p ∈ parse_py_indexes_scel bs t → p ≠ "") := by
  refine ⟨by decide, ?_, ?_, ?_⟩
  · intro data pyList pos cnt e h
    exact scelWords_pinyin data pyList cnt pos e h
  · intro bs t hodd
    unfold parse_py_indexes_scel
    rw [if_pos hodd, if_neg ?_]
    rw [List.length_dropLast]
    omega
  · intro bs t p h
    unfold parse_py_indexes_scel at h
    split_ifs at h <;> exact pyPairs_ne _ _ _ h

/-- C8, witness: the shared-pinyin statement applied to the scenario
    buffer's single group expansion. -/
theorem c8_witness : (Entry.mk "你好" ["ni", "hao"] 10).pinyin = ["ni", "hao"] :=
  c8_group_pinyin_resolution.2.1 c8buf ["ni", "hao"] 30 1 ⟨"你好", ["ni", "hao"], 10⟩
    (by decide)

theorem dropWhile_append_eq (p : Char → Bool) :
    ∀ l : List Char, ∃ t, t ++ l.dropWhile p = l
  | [] => ⟨[], rfl⟩
  | c :: l => by
    by_cases hc : p c
    · obtain ⟨t, ht⟩ := dropWhile_append_eq p l
      exact ⟨c :: t, by simp [List.dropWhile_cons, hc, ht]⟩
    · exact ⟨[], by simp [List.dropWhile_cons, hc]⟩

theorem dropWhile_head_false (p : Char → Bool) :
    ∀ (l : List Char) (c : Char) (m : List Char), l.dropWhile p = c :: m → p c = false
  | [], c, m => by simp [List.dropWhile]
  | b :: l, c, m => by
    by_cases hb : p b
    · rw [List.dropWhile_cons, if_pos hb]
      exact dropWhile_head_false p l c m
    · rw [List.dropWhile_cons, if_neg hb]
      intro h
      obtain ⟨rfl, -⟩ := List.cons.injEq .. ▸ h
      simpa using hb

theorem stripChars_idem (l : List Char) : stripChars (stripChars l) = stripChars l := by
  set A := l.dropWhile pySpace with hA
  set B := A.reverse.dropWhile pySpace with hB
  have hm : stripChars l = B.reverse := rfl
  rw [hm]
  obtain ⟨t, ht⟩ := dropWhile_append_eq pySpace A.reverse
  have hAm : B.reverse ++ t.reverse = A := by
    have := congrArg List.reverse ht
    simpa using this
  have step1 : B.reverse.dropWhile pySpace = B.reverse := by
    cases hc : B.reverse with
    | nil => simp
    | cons c m =>
      have hcA : A.dropWhile pySpace = A := by
        rw [hA]
        exact List.dropWhile_idempotent ..
      have : ∃ m', A = c :: m' := by
        refine ⟨m ++ t.reverse, ?_⟩
        rw [← hAm, hc]
        simp
      obtain ⟨m', hAc⟩ := this
      have hpc : pySpace c = false := by
        apply dropWhile_head_false pySpace A c m'
        rw [hcA, hAc]
      rw [hc] at *
      rw [List.dropWhile_cons, if_neg (by simp [hpc])]
  have step2 : B.reverse.reverse.dropWhile pySpace = B.reverse.reverse := by
    rw [List.reverse_reverse]
    cases hc : B with
    | nil => simp
    | cons c m =>
      have hpc : pySpace c = false := dropWhile_head_false pySpace A.reverse c m (hB.symm.trans hc)
      rw [List.dropWhile_cons, if_neg (by simp [hpc])]
    
  unfold stripChars
  rw [step1, step2, List.reverse_reverse]

theorem pyStrip_idem (s : String) : pyStrip (pyStrip s) = pyStrip s := by
  unfold pyStrip
  simp [stripChars_idem]

theorem mem_dedupFirst : ∀ (l : List String) (a : String), a ∈ dedupFirst l ↔ a ∈ l
  | [], a => by simp [dedupFirst]
  | w :: rest, a => by
    rw [dedupFirst]
    by_cases hw : a = w
    · subst hw; simp
    · simp only [List.mem_cons]
      rw [mem_dedupFirst (rest.filter (fun x => x != w)) a, List.mem_filter]
      simp [hw]
termination_by l _ => l.length
decreasing_by
  simp only [List.length_cons]
  exact Nat.lt_succ_of_le (List.length_filter_le _ _)

theorem dedupFirst_nodup : ∀ l : List String, (dedupFirst l).Nodup
  | [] => by simp [dedupFirst]
  | w :: rest => by
    rw [dedupFirst]
    refine List.nodup_cons.mpr ⟨?_, dedupFirst_nodup _⟩
    intro hmem
    have := (mem_dedupFirst _ _).mp hmem
    simp [List.mem_filter] at this
termination_by l => l.length
decreasing_by
  simp only [List.length_cons]
  exact Nat.lt_succ_of_le (List.length_filter_le _ _)

theorem uniqStableGo_eq_dedupFirst :
    ∀ (es : List Entry) (seen : List String),
      uniqStableGo seen es =
        dedupFirst ((es.map (fun e => pyStrip e.word)).filter
          (fun w => !(w == "" || seen.contains w))) := by
  intro es
  induction es with
  | nil => intro seen; simp [uniqStableGo, dedupFirst]
  | cons e rest ih =>
    intro seen
    simp only [uniqStableGo, List.map_cons, List.filter_cons]
    by_cases h : pyStrip e.word = "" ∨ pyStrip e.word ∈ seen
    · rw [if_pos h]
      have hb : (!(pyStrip e.word == "" || seen.contains (pyStrip e.word))) = false := by
        rcases h with h | h <;> simp [h]
      rw [hb]
      exact ih seen
    · rw [if_neg h]
      push_neg at h
      have hb : (!(pyStrip e.word == "" || seen.contains (pyStrip e.word))) = true := by
        simp [h.1, h.2]
      rw [if_pos hb, dedupFirst, List.filter_filter]
      rw [ih (pyStrip e.word :: seen)]
      congr 1
      apply congrArg dedupFirst
      apply List.filter_congr
      intro x hx
      by_cases hxw : x = pyStrip e.word
      · subst hxw; simp
      · simp only [List.contains_cons]
        cases hxe : x == "" <;> cases hxs : seen.contains x <;>
          simp_all [hxw, bne]

/-- C7: the unique-word-list reducer equals first-occurrence deduplication of
    the trimmed, nonempty words (capturing trim / skip-empty / seen-set /
    first-occurrence order at once); its output has no duplicates; and it is
    idempotent: feeding its own output back as entries reproduces it
    (determinism — identical output on the identical entry sequence — is
    immediate since the reducer is a pure function of the entry list). -/
theorem c7_uniq_stable_words_spec :
    (∀ entries : List Entry,
      uniq_stable_words entries =
        dedupFirst ((entries.map (fun e => pyStrip e.word)).filter (fun w => w != ""))) ∧
    (∀ entries : List Entry, (uniq_stable_words entries).Nodup) ∧
    (∀ entries : List Entry,
      uniq_stable_words ((uniq_stable_words entries).map (fun w => ⟨w, [], 1⟩)) =
        uniq_stable_words entries) := by
  have hrefine : ∀ entries : List Entry,
      uniq_stable_words entries =
        dedupFirst ((entries.map (fun e => pyStrip e.word)).filter (fun w => w != "")) := by
    intro entries
    rw [uniq_stable_words, uniqStableGo_eq_dedupFirst]
    congr 1
    apply List.filter_congr
    intro x hx
    simp [bne]
  have hnodup : ∀ entries : List Entry, (uniq_stable_words entries).Nodup := by
    intro entries
    rw [hrefine]
    exact dedupFirst_nodup _
  have hmem : ∀ (entries : List Entry) (w : String),
      w ∈ uniq_stable_words entries → pyStrip w = w ∧ w ≠ "" := by
    intro entries w hw
    rw [hrefine] at hw
    have := (mem_dedupFirst _ _).mp hw
    rw [List.mem_filter] at this
    obtain ⟨hmap, hne⟩ := this
    obtain ⟨e, -, hew⟩ := List.mem_map.mp hmap
    refine ⟨?_, by simpa using hne⟩
    rw [← hew, pyStrip_idem]
  have hkept : ∀ (ws : List String) (seen : List String), ws.Nodup →
      (∀ w ∈ ws, pyStrip w = w ∧ w ≠ "" ∧ w ∉ seen) →
      uniqStableGo seen (ws.map (fun w => ⟨w, [], 1⟩)) = ws := by
    intro ws
    induction ws with
    | nil => intro seen _ _; simp [uniqStableGo]
    | cons w ws' ih =>
      intro seen hnd hall
      obtain ⟨hw1, hw2, hw3⟩ := hall w (List.mem_cons_self _ _)
      simp only [List.map_cons, uniqStableGo]
      rw [hw1, if_neg (by push_neg; exact ⟨hw2, hw3⟩)]
      congr 1
      refine ih _ (List.nodup_cons.mp hnd).2 ?_
      intro w' hw'
      obtain ⟨h1, h2, h3⟩ := hall w' (List.mem_cons_of_mem _ hw')
      refine ⟨h1, h2, ?_⟩
      intro hmem
      rcases List.mem_cons.mp hmem with rfl | hmem
      · exact (List.nodup_cons.mp hnd).1 hw'
      · exact h3 hmem
  refine ⟨hrefine, hnodup, ?_⟩
  intro entries
  apply hkept
  · exact hnodup entries
  · intro w hw
    obtain ⟨h1, h2⟩ := hmem entries w hw
    exact ⟨h1, h2, List.not_mem_nil w⟩

theorem dedupFirst_append_singleton :
    ∀ (l : List String) (w : String),
      dedupFirst (l ++ [w]) = if w ∈ l then dedupFirst l else dedupFirst l ++ [w]
  | [], w => by simp [dedupFirst]
  | x :: rest, w => by
    rw [List.cons_append, dedupFirst, dedupFirst, List.filter_append]
    by_cases hw : w = x
    · subst hw
      simp only [List.filter_cons]
      rw [if_neg (by simp)]
      simp
    · simp only [List.filter_cons, List.filter_nil]
      rw [if_pos (by simp [hw])]
      rw [dedupFirst_append_singleton (rest.filter (fun x' => x' != x)) w]
      have hmem : w ∈ rest.filter (fun x' => x' != x) ↔ w ∈ rest := by
        simp [List.mem_filter, hw]
      by_cases hwr : w ∈ rest
      · rw [if_pos (hmem.mpr hwr), if_pos (by simp [hwr])]
      · rw [if_neg (fun hc => hwr (hmem.mp hc)), if_neg (by simp [hw, hwr]),
          List.cons_append]
termination_by l _ => l.length
decreasing_by
  simp only [List.length_cons]
  exact Nat.lt_succ_of_le (List.length_filter_le _ _)

theorem alGet_map (l : List String) (g : String → List String × Nat) (k : String) :
    alGet (l.map (fun w => (w, g w))) k = if k ∈ l then some (g k) else none := by
  induction l with
  | nil => simp [alGet]
  | cons x rest ih =>
    simp only [List.map_cons, alGet]
    by_cases hx : x = k
    · subst hx
      simp
    · rw [if_neg hx, ih]
      by_cases hk : k ∈ rest
      · rw [if_pos hk, if_pos (List.mem_cons_of_mem _ hk)]
      · rw [if_neg hk, if_neg (by
          intro hc
          rcases List.mem_cons.mp hc with h | h
          · exact hx h.symm
          · exact hk h)]

theorem alSet_map_mem (l : List String) (g : String → List String × Nat) (k : String)
    (v : List String × Nat) (hnd : l.Nodup) (hk : k ∈ l) :
    alSet (l.map (fun w => (w, g w))) k v =
      l.map (fun w => (w, if w = k then v else g w)) := by
  induction l with
  | nil => cases hk
  | cons x rest ih =>
    simp only [List.map_cons, alSet]
    by_cases hx : x = k
    · subst hx
      rw [if_pos rfl, if_pos rfl]
      congr 1
      apply List.map_congr_left
      intro w hw
      rw [if_neg]
      intro hwx
      exact (List.nodup_cons.mp hnd).1 (hwx ▸ hw)
    · rw [if_neg hx, if_neg hx]
      congr 1
      exact ih (List.nodup_cons.mp hnd).2
        ((List.mem_cons.mp hk).resolve_left (fun h => hx h.symm))

theorem alSet_map_notmem (l : List String) (g : String → List String × Nat) (k : String)
    (v : List String × Nat) (hk : k ∉ l) :
    alSet (l.map (fun w => (w, g w))) k v =
      l.map (fun w => (w, g w)) ++ [(k, v)] := by
  induction l with
  | nil => simp [alSet]
  | cons x rest ih =>
    simp only [List.map_cons, alSet]
    rw [if_neg (by intro h; subst h; exact hk (List.mem_cons_self _ _)), List.cons_append]
    congr 1
    exact ih (fun h => hk (List.mem_cons_of_mem _ h))

theorem foldr_max_append (l : List Nat) (x : Nat) :
    (l ++ [x]).foldr max 0 = max (l.foldr max 0) x := by
  induction l with
  | nil => simp [Nat.max_comm]
  | cons a l ih =>
    simp only [List.cons_append, List.foldr_cons, ih]
    rw [Nat.max_assoc]

theorem le_foldr_max : ∀ (l : List Nat) (x : Nat), x ∈ l → x ≤ l.foldr max 0 := by
  intro l
  induction l with
  | nil => intro x h; cases h
  | cons a l ih =>
    intro x h
    rcases List.mem_cons.mp h with rfl | h
    · exact Nat.le_max_left _ _
    · exact Nat.le_trans (ih x h) (Nat.le_max_right _ _)

theorem mem_foldr_max : ∀ l : List Nat, l ≠ [] → l.foldr max 0 ∈ l
  | [], h => absurd rfl h
  | [x], _ => by simp
  | x :: y :: t, _ => by
    have hm := mem_foldr_max (y :: t) (by simp)
    rcases max_choice x ((y :: t).foldr max 0) with h | h
    · rw [List.foldr_cons, h]
      exact List.mem_cons_self _ _
    · rw [List.foldr_cons, h]
      exact List.mem_cons_of_mem _ hm

theorem specBest_singleton (e : Entry) : specBest [e] = (e.pinyin, e.freq) := by
  simp [specBest]

theorem find?_freq_isSome (es : List Entry) (hne : es ≠ []) :
    ∃ e₀, es.find? (fun e => e.freq == (es.map (fun e => e.freq)).foldr max 0) = some e₀ := by
  have hmem : (es.map (fun e => e.freq)).foldr max 0 ∈ es.map (fun e => e.freq) := by
    apply mem_foldr_max
    simpa using hne
  obtain ⟨e₀, he₀, hfe⟩ := List.mem_map.mp hmem
  have : (es.find? (fun e => e.freq == (es.map (fun e => e.freq)).foldr max 0)).isSome := by
    rw [List.find?_isSome]
    exact ⟨e₀, he₀, by simp [hfe]⟩
  exact Option.isSome_iff_exists.mp this

theorem specBest_snd (es : List Entry) (hne : es ≠ []) :
    (specBest es).2 = (es.map (fun e => e.freq)).foldr max 0 := by
  obtain ⟨e₀, he₀⟩ := find?_freq_isSome es hne
  have hfreq : e₀.freq = (es.map (fun e => e.freq)).foldr max 0 := by
    have := List.find?_some he₀
    simpa using this
  simp only [specBest, he₀]
  exact hfreq

theorem specBest_append_gt (es : List Entry) (e : Entry)
    (h : (es.map (fun e => e.freq)).foldr max 0 < e.freq) :
    specBest (es ++ [e]) = (e.pinyin, e.freq) := by
  have hmax : ((es ++ [e]).map (fun e => e.freq)).foldr max 0 = e.freq := by
    rw [List.map_append, List.map_cons, List.map_nil, foldr_max_append]
    exact Nat.max_eq_right (Nat.le_of_lt h)
  have hnone : es.find? (fun e' => e'.freq == e.freq) = none := by
    rw [List.find?_eq_none]
    intro x hx
    simp only [beq_iff_eq]
    intro hxe
    exact absurd h (Nat.not_lt.mpr (hxe ▸ le_foldr_max _ _ (List.mem_map_of_mem _ hx)))
  simp only [specBest, hmax, List.find?_append, hnone, Option.or]
  simp [List.find?_cons]

theorem specBest_append_le (es : List Entry) (e : Entry) (hne : es ≠ [])
    (h : e.freq ≤ (es.map (fun e => e.freq)).foldr max 0) :
    specBest (es ++ [e]) = specBest es := by
  have hmax : ((es ++ [e]).map (fun e => e.freq)).foldr max 0 =
      (es.map (fun e => e.freq)).foldr max 0 := by
    rw [List.map_append, List.map_cons, List.map_nil, foldr_max_append]
    exact Nat.max_eq_left h
  obtain ⟨e₀, he₀⟩ := find?_freq_isSome es hne
  simp only [specBest, hmax, List.find?_append, he₀, Option.or]

theorem filter_word_ne_nil (pre : List Entry) (w : String)
    (h : w ∈ pre.map (fun e => e.word)) :
    pre.filter (fun e' => e'.word == w) ≠ [] := by
  obtain ⟨e, he, hew⟩ := List.mem_map.mp h
  exact List.ne_nil_of_mem (List.mem_filter.mpr ⟨he, by simp [hew]⟩)

theorem bestInsert_of_get_none (m : List (String × List String × Nat)) (e : Entry)
    (h : alGet m e.word = none) :
    bestInsert m e = alSet m e.word (e.pinyin, e.freq) := by
  simp [bestInsert, h]

theorem bestInsert_of_get_some (m : List (String × List String × Nat)) (e : Entry)
    (cur : List String × Nat) (h : alGet m e.word = some cur) :
    bestInsert m e =
      if cur.2 < e.freq then alSet m e.word (e.pinyin, e.freq) else m := by
  simp [bestInsert, h]

theorem specMerge_append (pre : List Entry) (e : Entry) :
    specMerge (pre ++ [e]) = bestInsert (specMerge pre) e := by
  have hsm : specMerge pre =
      (dedupFirst (pre.map fun e' => e'.word)).map
        (fun w => (w, specBest (pre.filter (fun e' => e'.word == w)))) := rfl
  have hsm2 : specMerge (pre ++ [e]) =
      (dedupFirst ((pre ++ [e]).map fun e' => e'.word)).map
        (fun w => (w, specBest ((pre ++ [e]).filter (fun e' => e'.word == w)))) := rfl
  have hmap : (pre ++ [e]).map (fun e' => e'.word) =
      pre.map (fun e' => e'.word) ++ [e.word] := by
    rw [List.map_append, List.map_cons, List.map_nil]
  have hfilter_ne : ∀ w : String, w ≠ e.word →
      (pre ++ [e]).filter (fun e' => e'.word == w) = pre.filter (fun e' => e'.word == w) := by
    intro w hw
    rw [List.filter_append]
    have hnil : List.filter (fun e' => e'.word == w) [e] = [] := by
      simp only [List.filter_cons, List.filter_nil]
      rw [if_neg (by simp only [beq_iff_eq]; exact fun h => hw h.symm)]
    rw [hnil, List.append_nil]
  have hfilter_eq :
      (pre ++ [e]).filter (fun e' => e'.word == e.word) =
        pre.filter (fun e' => e'.word == e.word) ++ [e] := by
    rw [List.filter_append]
    simp
  have halget : alGet (specMerge pre) e.word =
      if e.word ∈ pre.map (fun e' => e'.word) then
        some (specBest (pre.filter (fun e' => e'.word == e.word))) else none := by
    rw [hsm, alGet_map (dedupFirst (pre.map fun e' => e'.word))
      (fun w => specBest (pre.filter (fun e' => e'.word == w))) e.word]
    by_cases hmem : e.word ∈ pre.map (fun e' => e'.word)
    · rw [if_pos ((mem_dedupFirst _ _).mpr hmem), if_pos hmem]
    · rw [if_neg (fun hc => hmem ((mem_dedupFirst _ _).mp hc)), if_neg hmem]
  by_cases hmem : e.word ∈ pre.map (fun e' => e'.word)
  · have hne := filter_word_ne_nil pre e.word hmem
    have halget' : alGet (specMerge pre) e.word =
        some (specBest (pre.filter (fun e' => e'.word == e.word))) := by
      rw [halget, if_pos hmem]
    rw [bestInsert_of_get_some (specMerge pre) e _ halget']
    by_cases hgt :
        (specBest (pre.filter (fun e' => e'.word == e.word))).2 < e.freq
    · rw [if_pos hgt, hsm, alSet_map_mem (dedupFirst (pre.map fun e' => e'.word))
        (fun w => specBest (pre.filter (fun e' => e'.word == w))) e.word
        (e.pinyin, e.freq) (dedupFirst_nodup _) ((mem_dedupFirst _ _).mpr hmem)]
      rw [hsm2, hmap, dedupFirst_append_singleton, if_pos hmem]
      apply List.map_congr_left
      intro w hw
      by_cases hwe : w = e.word
      · subst hwe
        rw [if_pos rfl, hfilter_eq]
        rw [specBest_snd _ hne] at hgt
        rw [specBest_append_gt _ _ hgt]
      · rw [if_neg hwe, hfilter_ne w hwe]
    · rw [if_neg hgt, hsm2, hmap, dedupFirst_append_singleton, if_pos hmem, hsm]
      apply List.map_congr_left
      intro w hw
      by_cases hwe : w = e.word
      · subst hwe
        rw [hfilter_eq]
        rw [specBest_snd _ hne] at hgt
        rw [specBest_append_le _ _ hne (Nat.not_lt.mp hgt)]
      · rw [hfilter_ne w hwe]
  · have halget' : alGet (specMerge pre) e.word = none := by
      rw [halget, if_neg hmem]
    rw [bestInsert_of_get_none (specMerge pre) e halget']
    rw [hsm, alSet_map_notmem (dedupFirst (pre.map fun e' => e'.word))
      (fun w => specBest (pre.filter (fun e' => e'.word == w))) e.word
      (e.pinyin, e.freq) (fun hc => hmem ((mem_dedupFirst _ _).mp hc))]
    rw [hsm2, hmap, dedupFirst_append_singleton, if_neg hmem, List.map_append]
    congr 1
    · apply List.map_congr_left
      intro w hw
      have hwe : w ≠ e.word := by
        intro hc
        exact hmem (hc ▸ (mem_dedupFirst _ _).mp hw)
      rw [hfilter_ne w hwe]
    · have hnilf : pre.filter (fun e' => e'.word == e.word) = [] := by
        rw [List.filter_eq_nil_iff]
        intro a ha
        simp only [beq_iff_eq]
        intro hc
        exact hmem (List.mem_map.mpr ⟨a, ha, hc⟩)
      rw [List.map_cons, List.map_nil, hfilter_eq, hnilf, List.nil_append,
        specBest_singleton]

theorem foldl_bestInsert_specMerge :
    ∀ (rest pre : List Entry),
      List.foldl bestInsert (specMerge pre) rest = specMerge (pre ++ rest) := by
  intro rest
  induction rest with
  | nil => intro pre; simp
  | cons e rest ih =>
    intro pre
    rw [List.foldl_cons, ← specMerge_append, ih (pre ++ [e]), List.append_assoc,
      List.singleton_append]

theorem rimeMerge_eq_specMerge (entries : List Entry) :
    write_rime_yaml_best entries = specMerge entries := by
  have h0 : specMerge [] = [] := by simp [specMerge, dedupFirst]
  have := foldl_bestInsert_specMerge entries []
  rw [h0] at this
  simpa [write_rime_yaml_best] using this

/-- C6: the weighted-merge reducer equals its specification: one output row
    per distinct word in first-appearance order (the row order is exactly
    the deduplicated word sequence), each row carrying the pinyin and
    frequency of the entry with the highest frequency for that word, the
    earliest such entry winning ties (specBest takes the first entry
    attaining the maximum frequency). -/
theorem c6_weighted_merge_spec (entries : List Entry) :
    write_rime_yaml_best entries = specMerge entries ∧
      (write_rime_yaml_best entries).map Prod.fst =
        dedupFirst (entries.map (fun e => e.word)) := by
  refine ⟨rimeMerge_eq_specMerge entries, ?_⟩
  rw [rimeMerge_eq_specMerge entries, specMerge, List.map_map]
  have hcomp : (Prod.fst ∘ fun w =>
      (w, specBest (entries.filter (fun e => e.word == w)))) = id := rfl
  rw [hcomp, List.map_id]

/-- C10: a whitespace-only word is omitted by the unique-word-list reducer
    (its entry contributes nothing), while the weighted merge — which trims
    nothing and keys on the exact word string — still emits a row keyed by
    that exact word; consequently the concrete pair " A" / "A" deduplicates
    to the single word "A" in the word list but yields two distinct
    weighted-merge rows. -/
theorem c10_whitespace_word_reducers :
    (∀ (e : Entry) (entries : List Entry), pyStrip e.word = "" →
      uniq_stable_words (e :: entries) = uniq_stable_words entries ∧
      ∃ pf, (e.word, pf) ∈ write_rime_yaml_best (e :: entries)) ∧
    uniq_stable_words [⟨" A", [], 1⟩, ⟨"A", [], 2⟩] = ["A"] ∧
    (write_rime_yaml_best [⟨" A", [], 1⟩, ⟨"A", [], 2⟩]).length = 2 := by
  refine ⟨?_, by decide, by decide⟩
  intro e entries h
  constructor
  · show uniqStableGo [] (e :: entries) = uniqStableGo [] entries
    simp only [uniqStableGo]
    rw [h, if_pos (Or.inl rfl)]
  · rw [rimeMerge_eq_specMerge]
    have hmem : e.word ∈ dedupFirst ((e :: entries).map (fun e' => e'.word)) := by
      rw [mem_dedupFirst]
      exact List.mem_map.mpr ⟨e, List.mem_cons_self _ _, rfl⟩
    exact ⟨specBest ((e :: entries).filter (fun e' => e'.word == e.word)),
      List.mem_map.mpr ⟨e.word, hmem, rfl⟩⟩

/-- C10, witness: the quantified statement applied to a word consisting of a
    single U+3000 ideographic space (strip-empty though not ASCII), with no
    further entries. -/
theorem c10_witness :
    uniq_stable_words [⟨String.mk [Char.ofNat 0x3000], [], 3⟩] = uniq_stable_words [] ∧
      ∃ pf, (String.mk [Char.ofNat 0x3000], pf) ∈
        write_rime_yaml_best [⟨String.mk [Char.ofNat 0x3000], [], 3⟩] :=
  c10_whitespace_word_reducers.1 ⟨String.mk [Char.ofNat 0x3000], [], 3⟩ [] (by decide)

theorem getByte_ok (data : List Nat) (i : Nat) (h : i < data.length) :
    getByte data i = .ok (data.getD i 0) := by
  simp [getByte, List.get?_eq_getElem?, List.getElem?_eq_getElem h,
    List.getD_eq_getElem?_getD]

theorem getItem_ok (t : List String) (i : Nat) (h : i < t.length) :
    getItem t i = .ok (t.getD i "") := by
  simp [getItem, List.get?_eq_getElem?, List.getElem?_eq_getElem h,
    List.getD_eq_getElem?_getD]

theorem u16leX_eq (data : List Nat) (off : Nat) :
    u16leX data off =
      if data.length < off + 2 then .error .eof else .ok (u16le data off) := by
  unfold u16leX
  by_cases h : data.length < off + 2
  · rw [if_pos h, if_pos h]
  · rw [if_neg h, if_neg h,
      getByte_ok data off (by omega), getByte_ok data (off + 1) (by omega)]
    rfl

theorem u16leX_ok (data : List Nat) (off : Nat) (h : off + 2 ≤ data.length) :
    u16leX data off = .ok (u16le data off) := by
  rw [u16leX_eq, if_neg (by omega)]

theorem baiduSylX_eq (data : List Nat) :
    ∀ (cnt off : Nat), baiduSylX data off cnt = .ok (baiduSyl data off cnt) := by
  intro cnt
  induction cnt with
  | zero => intro off; rfl
  | succ n ih =>
    intro off
    by_cases h : data.length - off < 2
    · simp only [baiduSylX, baiduSyl]
      rw [if_pos h, if_pos h]
    · simp only [baiduSylX, baiduSyl]
      rw [if_neg h, if_neg h]
      simp only [getByte_ok data off (by omega), getByte_ok data (off + 1) (by omega)]
      by_cases hff : data.getD off 0 = 0xFF
      · rw [if_pos hff, if_pos hff]
        simp only [ih (off + 2)]
        rcases baiduSyl data (off + 2) n with _ | r <;> rfl
      · rw [if_neg hff, if_neg hff]
        by_cases hrange : BDICT_SM.length ≤ data.getD off 0 ∨
            BDICT_YM.length ≤ data.getD (off + 1) 0
        · rw [if_pos hrange, if_pos hrange]
        · rw [if_neg hrange, if_neg hrange]
          push_neg at hrange
          simp only [getItem_ok BDICT_SM (data.getD off 0) hrange.1,
            getItem_ok BDICT_YM (data.getD (off + 1) 0) hrange.2, ih (off + 2)]
          rcases baiduSyl data (off + 2) n with _ | r <;> rfl

theorem baiduLoopX_eq (data : List Nat) :
    ∀ (fuel off : Nat), baiduLoopX data off fuel = .ok (baiduLoop data off fuel) := by
  intro fuel
  induction fuel with
  | zero => intro off; rfl
  | succ n ih =>
    intro off
    by_cases hA : 4 < data.length - off
    · simp only [baiduLoopX, baiduLoop]
      rw [if_pos hA, if_pos hA]
      simp only [u16leX_ok data off (by omega), u16leX_ok data (off + 2) (by omega)]
      by_cases hB : data.length - (off + 4) < 2
      · rw [if_pos hB, if_pos hB]
      · rw [if_neg hB, if_neg hB]
        simp only [getByte_ok data (off + 4) (by omega),
          getByte_ok data (off + 5) (by omega)]
        by_cases hC : data.getD (off + 4) 0 = 0 ∧ data.getD (off + 5) 0 = 0
        · rw [if_pos hC, if_pos hC]
          by_cases hD : data.length < off + 8
          · have hw : u16leX data (off + 6) = .error .eof := by
              rw [u16leX_eq, if_pos (by omega)]
            simp only [hw]
            rw [if_pos hD]
          · have hw : u16leX data (off + 6) = .ok (u16le data (off + 6)) :=
              u16leX_ok data (off + 6) (by omega)
            simp only [hw]
            rw [if_neg hD]
            by_cases hE : data.length - (off + 8) <
                u16le data off * 2 + u16le data (off + 6) * 2
            · rw [if_pos hE, if_pos hE]
            · rw [if_neg hE, if_neg hE]
              simp only [ih]
              rfl
        · rw [if_neg hC, if_neg hC]
          by_cases hF : BDICT_SM.length ≤ data.getD (off + 4) 0 ∧
              data.getD (off + 4) 0 ≠ 0xFF
          · rw [if_pos hF, if_pos hF]
            by_cases hG : data.length - (off + 5) < u16le data off
            · rw [if_pos hG, if_pos hG]
            · rw [if_neg hG, if_neg hG]
              simp only [ih]
              rfl
          · rw [if_neg hF, if_neg hF]
            simp only [baiduSylX_eq data (u16le data off) (off + 4)]
            rcases baiduSyl data (off + 4) (u16le data off) with _ | r
            · rfl
            · simp only []
              by_cases hH : data.length - r.2 < u16le data off * 2
              · rw [if_pos hH, if_pos hH]
              · rw [if_neg hH, if_neg hH]
                simp only [ih]
                rfl
    · simp only [baiduLoopX, baiduLoop]
      rw [if_neg hA, if_neg hA]

theorem parse_baiduX_eq (data : List Nat) (start_offset : Nat) :
    parse_baiduX data start_offset = .ok (parse_baidu data start_offset) :=
  baiduLoopX_eq data (data.length + 1) start_offset

theorem scelTableLoopX_eq (data : List Nat) (sc : Nat) :
    ∀ (fuel pos : Nat),
      scelTableLoopX data sc pos fuel = .ok (scelTableLoop data sc pos fuel) := by
  intro fuel
  induction fuel with
  | zero => intro pos; rfl
  | succ n ih =>
    intro pos
    by_cases hA : pos + 4 ≤ data.length ∧ pos < sc
    · have h31 : pos + 2 + 1 = pos + 3 := by omega
      simp only [scelTableLoopX, scelTableLoop, u16le, h31]
      rw [if_pos hA, if_pos hA]
      simp only [getByte_ok data pos (by omega), getByte_ok data (pos + 1) (by omega),
        getByte_ok data (pos + 2) (by omega), getByte_ok data (pos + 3) (by omega)]
      by_cases hB : (data.getD (pos + 2) 0 ||| data.getD (pos + 3) 0 <<< 8 : Nat) = 0 ∨
          data.length < pos + 4 + (data.getD (pos + 2) 0 ||| data.getD (pos + 3) 0 <<< 8)
      · rw [if_pos hB, if_pos hB]
      · rw [if_neg hB, if_neg hB]
        simp only [ih]
    · simp only [scelTableLoopX, scelTableLoop]
      rw [if_neg hA, if_neg hA]

theorem scelWordsX_eq (data : List Nat) (pyList : List String) :
    ∀ (cnt pos : Nat),
      scelWordsX data pyList pos cnt = .ok (scelWords data pyList pos cnt) := by
  intro cnt
  induction cnt with
  | zero => intro pos; rfl
  | succ n ih =>
    intro pos
    by_cases h1 : data.length - pos < 2
    · simp only [scelWordsX, scelWords]
      rw [if_pos h1, if_pos h1]
    · simp only [scelWordsX, scelWords]
      rw [if_neg h1, if_neg h1]
      simp only [u16leX_ok data pos (by omega)]
      by_cases h2 : u16le data pos = 0 ∨ data.length - (pos + 2) < u16le data pos
      · rw [if_pos h2, if_pos h2]
      · rw [if_neg h2, if_neg h2]
        by_cases h3 : data.length - (pos + 2 + u16le data pos) < 2
        · rw [if_pos h3, if_pos h3]
        · rw [if_neg h3, if_neg h3]
          simp only [u16leX_ok data (pos + 2 + u16le data pos) (by omega)]
          by_cases h4 : data.length - (pos + 4 + u16le data pos) <
              u16le data (pos + 2 + u16le data pos)
          · rw [if_pos h4, if_pos h4]
          · rw [if_neg h4, if_neg h4]
            simp only [ih]

theorem scelLoopX_eq (data : List Nat) (t : List (Nat × String)) :
    ∀ (fuel pos : Nat), scelLoopX data t pos fuel = .ok (scelLoop data t pos fuel) := by
  intro fuel
  induction fuel with
  | zero => intro pos; rfl
  | succ n ih =>
    intro pos
    by_cases hA : 8 < data.length - pos
    · simp only [scelLoopX, scelLoop]
      rw [if_pos hA, if_pos hA]
      simp only [u16leX_ok data pos (by omega), u16leX_ok data (pos + 2) (by omega)]
      by_cases hB : u16le data (pos + 2) = 0 ∨
          data.length - (pos + 4) < u16le data (pos + 2)
      · rw [if_pos hB, if_pos hB]
      · rw [if_neg hB, if_neg hB]
        simp only [scelWordsX_eq, ih]
    · simp only [scelLoopX, scelLoop]
      rw [if_neg hA, if_neg hA]

theorem parse_scelX_eq (data : List Nat) (start_py start_chinese : Nat) :
    parse_scelX data start_py start_chinese =
      .ok (parse_scel data start_py start_chinese) := by
  unfold parse_scelX parse_scel read_pinyin_table_scel
  rw [scelTableLoopX_eq data start_chinese (data.length + 1) (start_py + 4)]
  exact scelLoopX_eq data _ (data.length + 1) start_chinese

/-- C9: the decoders never subscript past the buffer end.  In the checked
    models every raw b[i] subscript is an explicit IndexError and every
    checked 16-bit read raises EOFError exactly when fewer than 2 bytes
    remain (third conjunct); both checked decoders always return ok with
    the same entries as the plain models, i.e. no execution path reaches an
    out-of-bounds access or an uncaught EOFError, for every input buffer
    and every choice of start offsets. -/
theorem c9_no_out_of_bounds_access (data : List Nat)
    (start_offset start_py start_chinese : Nat) :
    parse_baiduX data start_offset = .ok (parse_baidu data start_offset) ∧
    parse_scelX data start_py start_chinese =
      .ok (parse_scel data start_py start_chinese) ∧
    (∀ off, u16leX data off =
      if data.length < off + 2 then .error .eof else .ok (u16le data off)) :=
  ⟨parse_baiduX_eq data start_offset, parse_scelX_eq data start_py start_chinese,
    fun off => u16leX_eq data off⟩

theorem getD_take (d : List Nat) (L i : Nat) (h : i < L) :
    (d.take L).getD i 0 = d.getD i 0 := by
  rw [List.getD_eq_getElem?_getD, List.getD_eq_getElem?_getD, List.getElem?_take,
    if_pos h]

theorem u16le_take (d : List Nat) (L off : Nat) (h : off + 2 ≤ L) :
    u16le (d.take L) off = u16le d off := by
  unfold u16le
  rw [getD_take d L off (by omega), getD_take d L (off + 1) (by omega)]

theorem pySlice_take (d : List Nat) (L off k : Nat) (h : off + k ≤ L) :
    pySlice (d.take L) off k = pySlice d off k := by
  unfold pySlice
  rw [List.drop_take, List.take_take]
  congr 1
  exact Nat.min_eq_left (by omega)

theorem baiduSyl_end (d : List Nat) :
    ∀ (cnt off : Nat) (r : List String × Nat),
      baiduSyl d off cnt = some r → r.2 = off + 2 * cnt := by
  intro cnt
  induction cnt with
  | zero =>
    intro off r h
    simp only [baiduSyl] at h
    injection h with h'
    subst h'
    simp
  | succ n ih =>
    intro off r h
    simp only [baiduSyl] at h
    by_cases h1 : d.length - off < 2
    · rw [if_pos h1] at h
      exact absurd h (by simp)
    · rw [if_neg h1] at h
      by_cases h2 : d.getD off 0 = 0xFF
      · rw [if_pos h2] at h
        rcases hs : baiduSyl d (off + 2) n with _ | r'
        · rw [hs] at h; exact absurd h (by simp)
        · rw [hs] at h
          injection h with h'
          subst h'
          have := ih (off + 2) r' hs
          simp only [this]
          omega
      · rw [if_neg h2] at h
        by_cases h3 : BDICT_SM.length ≤ d.getD off 0 ∨ BDICT_YM.length ≤ d.getD (off + 1) 0
        · rw [if_pos h3] at h
          exact absurd h (by simp)
        · rw [if_neg h3] at h
          rcases hs : baiduSyl d (off + 2) n with _ | r'
          · rw [hs] at h; exact absurd h (by simp)
          · rw [hs] at h
            injection h with h'
            subst h'
            have := ih (off + 2) r' hs
            simp only [this]
            omega

theorem baiduSyl_le_length (d : List Nat) :
    ∀ (cnt off : Nat) (r : List String × Nat),
      off ≤ d.length → baiduSyl d off cnt = some r → r.2 ≤ d.length := by
  intro cnt
  induction cnt with
  | zero =>
    intro off r hoff h
    simp only [baiduSyl] at h
    injection h with h'
    subst h'
    exact hoff
  | succ n ih =>
    intro off r hoff h
    simp only [baiduSyl] at h
    by_cases h1 : d.length - off < 2
    · rw [if_pos h1] at h
      exact absurd h (by simp)
    · rw [if_neg h1] at h
      by_cases h2 : d.getD off 0 = 0xFF
      · rw [if_pos h2] at h
        rcases hs : baiduSyl d (off + 2) n with _ | r'
        · rw [hs] at h; exact absurd h (by simp)
        · rw [hs] at h
          injection h with h'
          subst h'
          exact ih (off + 2) r' (by omega) hs
      · rw [if_neg h2] at h
        by_cases h3 : BDICT_SM.length ≤ d.getD off 0 ∨ BDICT_YM.length ≤ d.getD (off + 1) 0
        · rw [if_pos h3] at h
          exact absurd h (by simp)
        · rw [if_neg h3] at h
          rcases hs : baiduSyl d (off + 2) n with _ | r'
          · rw [hs] at h; exact absurd h (by simp)
          · rw [hs] at h
            injection h with h'
            subst h'
            exact ih (off + 2) r' (by omega) hs

theorem baiduSyl_take (d : List Nat) (L : Nat) :
    ∀ (cnt off : Nat) (r : List String × Nat),
      baiduSyl (d.take L) off cnt = some r → baiduSyl d off cnt = some r := by
  intro cnt
  induction cnt with
  | zero => intro off r h; exact h
  | succ n ih =>
    intro off r h
    have hlen : (d.take L).length = min L d.length := List.length_take L d
    simp only [baiduSyl] at h ⊢
    by_cases h1 : (d.take L).length - off < 2
    · rw [if_pos h1] at h
      exact absurd h (by simp)
    · rw [if_neg h1] at h
      have hoff2 : off + 2 ≤ (d.take L).length := by omega
      have hfull : ¬ d.length - off < 2 := by
        rw [hlen] at hoff2; omega
      rw [if_neg hfull]
      rw [getD_take d L off (by rw [hlen] at hoff2; omega),
        getD_take d L (off + 1) (by rw [hlen] at hoff2; omega)] at h
      by_cases h2 : d.getD off 0 = 0xFF
      · rw [if_pos h2] at h
        rw [if_pos h2]
        rcases hs : baiduSyl (d.take L) (off + 2) n with _ | r'
        · rw [hs] at h; exact absurd h (by simp)
        · rw [hs] at h
          rw [ih (off + 2) r' hs]
          exact h
      · rw [if_neg h2] at h
        rw [if_neg h2]
        by_cases h3 : BDICT_SM.length ≤ d.getD off 0 ∨ BDICT_YM.length ≤ d.getD (off + 1) 0
        · rw [if_pos h3] at h
          exact absurd h (by simp)
        · rw [if_neg h3] at h
          rw [if_neg h3]
          rcases hs : baiduSyl (d.take L) (off + 2) n with _ | r'
          · rw [hs] at h; exact absurd h (by simp)
          · rw [hs] at h
            rw [ih (off + 2) r' hs]
            exact h

theorem baiduLoop_fuel (d : List Nat) :
    ∀ (f1 f2 off : Nat), d.length - off ≤ f1 → d.length - off ≤ f2 →
      baiduLoop d off f1 = baiduLoop d off f2 := by
  intro f1
  induction f1 with
  | zero =>
    intro f2 off hb1 hb2
    have hno : ¬ 4 < d.length - off := by omega
    cases f2 with
    | zero => rfl
    | succ m =>
      simp only [baiduLoop]
      rw [if_neg hno]
  | succ k ih =>
    intro f2 off hb1 hb2
    cases f2 with
    | zero =>
      have hno : ¬ 4 < d.length - off := by omega
      simp only [baiduLoop]
      rw [if_neg hno]
    | succ m =>
      by_cases hA : 4 < d.length - off
      · simp only [baiduLoop]
        rw [if_pos hA, if_pos hA]
        by_cases hB : d.length - (off + 4) < 2
        · rw [if_pos hB, if_pos hB]
        · rw [if_neg hB, if_neg hB]
          by_cases hC : d.getD (off + 4) 0 = 0 ∧ d.getD (off + 5) 0 = 0
          · rw [if_pos hC, if_pos hC]
            by_cases hD : d.length < off + 8
            · rw [if_pos hD, if_pos hD]
            · rw [if_neg hD, if_neg hD]
              by_cases hE : d.length - (off + 8) <
                  u16le d off * 2 + u16le d (off + 6) * 2
              · rw [if_pos hE, if_pos hE]
              · rw [if_neg hE, if_neg hE]
                congr 1
                exact ih m _ (by omega) (by omega)
          · rw [if_neg hC, if_neg hC]
            by_cases hF : BDICT_SM.length ≤ d.getD (off + 4) 0 ∧
                d.getD (off + 4) 0 ≠ 0xFF
            · rw [if_pos hF, if_pos hF]
              by_cases hG : d.length - (off + 5) < u16le d off
              · rw [if_pos hG, if_pos hG]
              · rw [if_neg hG, if_neg hG]
                congr 1
                exact ih m _ (by omega) (by omega)
            · rw [if_neg hF, if_neg hF]
              rcases hs : baiduSyl d (off + 4) (u16le d off) with _ | r
              · simp only [hs]
              · simp only [hs]
                have hr2 := baiduSyl_end d (u16le d off) (off + 4) r hs
                by_cases hH : d.length - r.2 < u16le d off * 2
                · rw [if_pos hH, if_pos hH]
                · rw [if_neg hH, if_neg hH]
                  congr 1
                  exact ih m _ (by omega) (by omega)
      · simp only [baiduLoop]
        rw [if_neg hA, if_neg hA]

theorem baiduLoop_take (d : List Nat) (L : Nat) :
    ∀ (fuel off : Nat),
      ∃ t, baiduLoop (d.take L) off fuel ++ t = baiduLoop d off fuel := by
  intro fuel
  induction fuel with
  | zero => intro off; exact ⟨[], rfl⟩
  | succ k ih =>
    intro off
    have hn' : (d.take L).length = min L d.length := List.length_take L d
    by_cases hA : 4 < (d.take L).length - off
    · have hA2 : 4 < d.length - off := by rw [hn'] at hA; omega
      have hoffL : off + 5 ≤ L := by rw [hn'] at hA; omega
      simp only [baiduLoop]
      rw [if_pos hA, if_pos hA2,
        u16le_take d L off (by omega), u16le_take d L (off + 2) (by omega)]
      by_cases hB : (d.take L).length - (off + 4) < 2
      · rw [if_pos hB]
        exact ⟨_, List.nil_append _⟩
      · have hB2 : ¬ d.length - (off + 4) < 2 := by rw [hn'] at hB; omega
        have hoffL6 : off + 6 ≤ (d.take L).length := by omega
        rw [if_neg hB, if_neg hB2,
          getD_take d L (off + 4) (by rw [hn'] at hoffL6; omega),
          getD_take d L (off + 5) (by rw [hn'] at hoffL6; omega)]
        by_cases hC : d.getD (off + 4) 0 = 0 ∧ d.getD (off + 5) 0 = 0
        · rw [if_pos hC, if_pos hC]
          by_cases hD : (d.take L).length < off + 8
          · rw [if_pos hD]
            exact ⟨_, List.nil_append _⟩
          · have hD2 : ¬ d.length < off + 8 := by rw [hn'] at hD; omega
            have hoffL8 : off + 8 ≤ L := by rw [hn'] at hD; omega
            rw [if_neg hD, if_neg hD2, u16le_take d L (off + 6) (by omega)]
            by_cases hE : (d.take L).length - (off + 8) <
                u16le d off * 2 + u16le d (off + 6) * 2
            · rw [if_pos hE]
              exact ⟨_, List.nil_append _⟩
            · have hE2 : ¬ d.length - (off + 8) <
                  u16le d off * 2 + u16le d (off + 6) * 2 := by
                rw [hn'] at hE; omega
              have hneedL : off + 8 + (u16le d off * 2 + u16le d (off + 6) * 2) ≤ L := by
                rw [hn'] at hE; omega
              rw [if_neg hE, if_neg hE2,
                pySlice_take d L (off + 8) (u16le d off * 2) (by omega),
                pySlice_take d L (off + 8 + u16le d off * 2)
                  (u16le d (off + 6) * 2) (by omega)]
              obtain ⟨t, ht⟩ := ih (off + 8 + (u16le d off * 2 + u16le d (off + 6) * 2))
              exact ⟨t, by rw [List.cons_append, ht]⟩
        · rw [if_neg hC, if_neg hC]
          by_cases hF : BDICT_SM.length ≤ d.getD (off + 4) 0 ∧
              d.getD (off + 4) 0 ≠ 0xFF
          · rw [if_pos hF, if_pos hF]
            by_cases hG : (d.take L).length - (off + 5) < u16le d off
            · rw [if_pos hG]
              exact ⟨_, List.nil_append _⟩
            · have hG2 : ¬ d.length - (off + 5) < u16le d off := by rw [hn'] at hG; omega
              have hpyL : off + 5 + u16le d off ≤ L := by rw [hn'] at hG; omega
              rw [if_neg hG, if_neg hG2,
                pySlice_take d L (off + 5) (u16le d off) (by omega)]
              obtain ⟨t, ht⟩ := ih (off + 5 + u16le d off)
              exact ⟨t, by rw [List.cons_append, ht]⟩
          · rw [if_neg hF, if_neg hF]
            rcases hs : baiduSyl (d.take L) (off + 4) (u16le d off) with _ | r
            · simp only [hs]
              exact ⟨_, List.nil_append _⟩
            · have hs2 : baiduSyl d (off + 4) (u16le d off) = some r :=
                baiduSyl_take d L (u16le d off) (off + 4) r hs
              simp only [hs, hs2]
              have hr2 : r.2 ≤ (d.take L).length :=
                baiduSyl_le_length (d.take L) (u16le d off) (off + 4) r (by omega) hs
              by_cases hH : (d.take L).length - r.2 < u16le d off * 2
              · rw [if_pos hH]
                exact ⟨_, List.nil_append _⟩
              · have hH2 : ¬ d.length - r.2 < u16le d off * 2 := by rw [hn'] at *; omega
                have hwordL : r.2 + u16le d off * 2 ≤ L := by rw [hn'] at *; omega
                rw [if_neg hH, if_neg hH2,
                  pySlice_take d L r.2 (u16le d off * 2) (by omega)]
                obtain ⟨t, ht⟩ := ih (r.2 + u16le d off * 2)
                exact ⟨t, by rw [List.cons_append, ht]⟩
    · simp only [baiduLoop]
      rw [if_neg hA]
      exact ⟨_, List.nil_append _⟩

/-- C5, counterexample: truncating c5buf from 28 to 24 bytes makes the
    phase-1 table entry's declared length overrun, so the truncated Sogou
    decode resolves its group against an empty table.  The truncated decode
    yields one entry, yet it is not the one-entry prefix of the full
    decode's output (the pinyin differs), so the truncated sequence is
    neither empty nor a prefix of the full one. -/
theorem c5_counterexample :
    (parse_scel (c5buf.take 24) 0 8).length = 1 ∧
      List.take 1 (parse_scel c5buf 0 8) ≠ parse_scel (c5buf.take 24) 0 8 := by
  constructor
  · decide
  · decide

/-- C5, amended: for the Baidu decoder the truncation property holds as
    claimed — decoding any truncation of a buffer (same start offset)
    produces a prefix of the full decode's entry sequence.  For the Sogou
    decoder the property fails (see the counterexample): truncation can
    change the phase-1 pinyin table and hence the pinyin of entries whose
    bytes are untouched.  (That no decode raises an unhandled error is the
    checked-decoder theorem for C9.) -/
theorem c5_amended_baidu_truncation_monotone (data : List Nat) (start_offset L : Nat) :
    ∃ t, parse_baidu (data.take L) start_offset ++ t = parse_baidu data start_offset := by
  unfold parse_baidu
  have h1 : baiduLoop (data.take L) start_offset ((data.take L).length + 1) =
      baiduLoop (data.take L) start_offset (data.length + 1) := by
    apply baiduLoop_fuel
    · omega
    · have : (data.take L).length ≤ data.length := by
        rw [List.length_take]
        omega
      omega
  rw [h1]
  exact baiduLoop_take data L (data.length + 1) start_offset
